import Mathlib

/-!
Verification of the structural-data utilities of `utility-js` (`src/index.ts`):
the bracketed-text parser `parsePojoString` (with its inner helpers `normalize`,
`tokenize`, `parseValue`, `parseList`, `parseItem`, `parseObject`) and the
structural differ `diffObjects`.

Strings are modelled as `List Char`; JavaScript records (`Record<string, any>`)
as ordered association lists `List (String × Value)`; JavaScript numbers as
rationals (`Rat`; `NaN` is represented by `Option.none` of the numeric
conversion, and never becomes a `Value`, mirroring the `isNaN` guard in the
source).  Array values carry a `ref : Nat` field modelling JavaScript object
identity: `===` on two arrays holds exactly when they are the same object, so
two separately constructed arrays with equal elements compare unequal.
-/

namespace UtilityJs

/-- The JavaScript whitespace set used by `String.prototype.trim` and by
`Number()`: tab, LF, VT, FF, CR, space, NBSP, Ogham space mark, the
U+2000–U+200A range, LS, PS, NNBSP, MMSP, ideographic space and BOM. -/
def jsIsWhitespace (c : Char) : Bool :=
  [0x9, 0xa, 0xb, 0xc, 0xd, 0x20, 0xa0, 0x1680, 0x2028, 0x2029, 0x202f,
    0x205f, 0x3000, 0xfeff].contains c.toNat
  || (decide (0x2000 ≤ c.toNat) && decide (c.toNat ≤ 0x200a))

/-- JavaScript `String.prototype.trim`: drop whitespace from both ends. -/
def jsTrim (l : List Char) : List Char :=
  ((l.dropWhile jsIsWhitespace).reverse.dropWhile jsIsWhitespace).reverse

/-- Loop of `tokenize` (src/index.ts:129-145): one pass over the characters,
tracking the bracket `depth`; the current buffer `buf` mirrors the mutable
`buf` string of the source.  A comma splits only when the depth (updated for
the current character first, exactly as in the source) is `0`; the final
buffer is emitted only when non-empty (`if (buf) tokens.push(buf.trim())`). -/
def tokenizeGo : List Char → List Char → Int → List (List Char)
  | [], buf, _ => if buf = [] then [] else [jsTrim buf]
  | c :: cs, buf, depth =>
    let depth' : Int :=
      if c = '[' then depth + 1 else if c = ']' then depth - 1 else depth
    if c = ',' ∧ depth' = 0 then
      jsTrim buf :: tokenizeGo cs [] depth'
    else
      tokenizeGo cs (buf ++ [c]) depth'

/-- `tokenize` (src/index.ts:129-145). -/
def tokenize (s : List Char) : List (List Char) :=
  tokenizeGo s [] 0

/-- A character matching the regex class `\w`, i.e. `[A-Za-z0-9_]`. -/
def isWordChar (c : Char) : Bool :=
  c.isAlpha || c.isDigit || c = '_'

/-- `str.replace(pat, repl)` for a literal global pattern: scan left to right,
replacing each non-overlapping occurrence of `pat` and continuing after the
replaced text (used for `.replace(/<null>/g, 'null')`, src/index.ts:126). -/
def replaceAll (pat repl : List Char) : List Char → List Char
  | [] => []
  | c :: cs =>
    if h : pat ≠ [] ∧ pat.isPrefixOf (c :: cs) then
      repl ++ replaceAll pat repl ((c :: cs).drop pat.length)
    else
      c :: replaceAll pat repl cs
termination_by l => l.length
decreasing_by
  · simp only [List.length_drop, List.length_cons]
    have hlen : 0 < pat.length := List.length_pos.mpr h.1
    omega
  · simp

/-- `List.dropWhile` never lengthens a list. -/
theorem listDropWhileLengthLe (p : α → Bool) :
    ∀ l : List α, (l.dropWhile p).length ≤ l.length
  | [] => Nat.le_refl _
  | a :: l => by
    by_cases hp : p a
    · rw [List.dropWhile_cons_of_pos hp]
      exact Nat.le_trans (listDropWhileLengthLe p l) (by simp)
    · rw [List.dropWhile_cons_of_neg (by simpa using hp)]

/-- A list with a head is one longer than its tail. -/
theorem listHeadSomeTailLength {l : List α} {a : α} (h : l.head? = some a) :
    l.tail.length + 1 = l.length := by
  cases l with
  | nil => simp at h
  | cons b t => simp

/-- `.replace(/(\w+)=\w+\[/g, '$1=[')` (src/index.ts:127).  A match of this
regex at a position is a maximal non-empty `\w` run, an `=`, a second
non-empty `\w` run, and a `[` (the runs are maximal because `\w` matches
neither `=` nor `[`, so greedy matching cannot stop a run early).  The scan
replaces the leftmost match, continues after it, and advances one character
when no match starts at the current position — the semantics of a global
regex replace. -/
def stripClassNames : List Char → List Char
  | [] => []
  | c :: cs =>
    if h : isWordChar c ∧ ((c :: cs).dropWhile isWordChar).head? = some '=' then
      if h2 : ((c :: cs).dropWhile isWordChar).tail.takeWhile isWordChar ≠ [] ∧
          (((c :: cs).dropWhile isWordChar).tail.dropWhile isWordChar).head? = some '[' then
        (c :: cs).takeWhile isWordChar ++ '=' :: '[' ::
          stripClassNames (((c :: cs).dropWhile isWordChar).tail.dropWhile isWordChar).tail
      else
        c :: stripClassNames cs
    else
      c :: stripClassNames cs
termination_by l => l.length
decreasing_by
  · have hA : ((c :: cs).dropWhile isWordChar).length ≤ (c :: cs).length :=
      listDropWhileLengthLe _ _
    have hB : ((c :: cs).dropWhile isWordChar).tail.length + 1 =
        ((c :: cs).dropWhile isWordChar).length := listHeadSomeTailLength h.2
    have hC : (((c :: cs).dropWhile isWordChar).tail.dropWhile isWordChar).length ≤
        ((c :: cs).dropWhile isWordChar).tail.length := listDropWhileLengthLe _ _
    have hD : (((c :: cs).dropWhile isWordChar).tail.dropWhile isWordChar).tail.length + 1 =
        (((c :: cs).dropWhile isWordChar).tail.dropWhile isWordChar).length :=
      listHeadSomeTailLength h2.2
    simp only [List.length_cons] at hA ⊢
    omega
  · simp
  · simp

/-- `normalize` (src/index.ts:124-127): replace every `<null>` by `null`,
then strip `identifier=identifier[` prefixes down to `identifier=[`. -/
def normalize (s : List Char) : List Char :=
  stripClassNames (replaceAll ("<null>".data) ("null".data) s)

/-- Digit run to a natural number (decimal). -/
def digitsToNat (l : List Char) : Nat :=
  l.foldl (fun n c => 10 * n + (c.toNat - ('0').toNat)) 0

/-- Exponent suffix of a JavaScript numeric literal: optional sign then a
non-empty digit run, scaling the mantissa by a power of ten. -/
def expPart (sign mant : Rat) (r : List Char) : Option Rat :=
  let p : Int × List Char :=
    match r with
    | '+' :: t => (1, t)
    | '-' :: t => (-1, t)
    | _ => (1, r)
  let ed := p.2.takeWhile Char.isDigit
  let rest := p.2.dropWhile Char.isDigit
  if ed = [] ∨ rest ≠ [] then none
  else some (sign * mant * (10 : Rat) ^ (p.1 * (digitsToNat ed : Int)))

/-- JavaScript `Number(val)` on a string (the conversion used by the
`!isNaN(Number(val))` guard, src/index.ts:151): `none` models `NaN`.  After
trimming whitespace, the empty string converts to `0`; otherwise an optional
sign, a digit run with optional fraction and optional exponent.  Model note:
the non-decimal forms JavaScript also accepts (`Infinity`, hex/octal/binary
literals) are mapped to `none`; no input below ever reaches them, and they
are not finite decimal values. -/
def jsToNumber (s : List Char) : Option Rat :=
  let t := jsTrim s
  if t = [] then some 0
  else
    let p : Rat × List Char :=
      match t with
      | '+' :: r => (1, r)
      | '-' :: r => (-1, r)
      | _ => (1, t)
    let intd := p.2.takeWhile Char.isDigit
    let r1 := p.2.dropWhile Char.isDigit
    match r1 with
    | [] => if intd = [] then none else some (p.1 * (digitsToNat intd : Rat))
    | '.' :: r2 =>
      let frac := r2.takeWhile Char.isDigit
      let r3 := r2.dropWhile Char.isDigit
      if intd = [] ∧ frac = [] then none
      else
        let mant : Rat :=
          (digitsToNat intd : Rat) + (digitsToNat frac : Rat) / (10 : Rat) ^ frac.length
        match r3 with
        | [] => some (p.1 * mant)
        | e :: r4 =>
          if e = 'e' ∨ e = 'E' then expPart p.1 mant r4 else none
    | e :: r4 =>
      if (e = 'e' ∨ e = 'E') ∧ intd ≠ [] then
        expPart p.1 ((digitsToNat intd : Rat)) r4
      else none

/-- The generic value tree of the data model: `Null`, `Bool`, `Number`,
`String`, `List`, `Object`.  Numbers are modelled as rationals (the parser's
`isNaN` guard keeps `NaN` out of every parsed tree, so parsed numbers are
finite).  A `list` carries a `ref : Nat` modelling JavaScript array identity:
`===` on arrays is reference equality, so two separately constructed arrays
are `!==` even when their elements coincide.  An `obj` is the ordered
key-value record `Record<string, any>`. -/
inductive Value where
  | null
  | bool (b : Bool)
  | num (q : Rat)
  | str (s : String)
  | list (ref : Nat) (elems : List Value)
  | obj (entries : List (String × Value))

/-- A JavaScript record: ordered association list of string keys and values. -/
abbrev JsObj := List (String × Value)

/-- The result of `parseItem` (src/index.ts:158-170): either a single-entry
object `{k: v}` (the first two branches) or a bare value (the last branch). -/
inductive ParsedItem where
  | entry (k : String) (v : Value)
  | bare (v : Value)

/-- A `parseItem` result as the JavaScript value it denotes: a single-entry
object, or the bare value itself (used for list elements). -/
def itemValue : ParsedItem → Value
  | .entry k v => Value.obj [(k, v)]
  | .bare v => v

/-- JavaScript property write `obj[k] = v` / `Object.assign(result, {k: v})`:
an existing key keeps its position and gets the new value; a new key is
appended in insertion order. -/
def assign : JsObj → String → Value → JsObj
  | [], k, v => [(k, v)]
  | (k', v') :: rest, k, v =>
    if k' = k then (k', v) :: rest else (k', v') :: assign rest k v

/-- The accumulation loop of `parseObject` (src/index.ts:172-181): each
single-entry object result is merged with `Object.assign`; every other
result contributes nothing (`typeof` of a number/boolean/string is not
`'object'`, arrays are excluded by `Array.isArray`, and the one remaining
object-typed bare value, `null`, makes `Object.assign(result, null)` a
no-op). -/
def mergeItems (items : List ParsedItem) : JsObj :=
  items.foldl
    (fun acc it =>
      match it with
      | .entry k v => assign acc k v
      | .bare _ => acc)
    []

/-- Sum of the lengths of a list of token strings (termination measure). -/
def sumLen : List (List Char) → Nat
  | [] => 0
  | t :: ts => t.length + sumLen ts

/-- Trimming never lengthens a string. -/
theorem jsTrimLengthLe (l : List Char) : (jsTrim l).length ≤ l.length := by
  have h1 := listDropWhileLengthLe jsIsWhitespace l
  have h2 := listDropWhileLengthLe jsIsWhitespace (l.dropWhile jsIsWhitespace).reverse
  simp only [jsTrim, List.length_reverse] at h2 ⊢
  omega

/-- The tokens of a scope are at most as long, in total, as the scope text
plus the pending buffer: commas are dropped and each emitted token is a
trimmed buffer. -/
theorem sumLenTokenizeGoLe (s : List Char) :
    ∀ (buf : List Char) (d : Int), sumLen (tokenizeGo s buf d) ≤ s.length + buf.length := by
  induction s with
  | nil =>
    intro buf d
    by_cases h : buf = []
    · simp [tokenizeGo, h, sumLen]
    · simp only [tokenizeGo, if_neg h, sumLen, List.length_nil]
      have := jsTrimLengthLe buf
      omega
  | cons c cs ih =>
    intro buf d
    simp only [tokenizeGo]
    by_cases hc : c = ',' ∧ (if c = '[' then d + 1 else if c = ']' then d - 1 else d) = 0
    · rw [if_pos hc]
      simp only [sumLen]
      have h1 := ih [] (if c = '[' then d + 1 else if c = ']' then d - 1 else d)
      have h2 := jsTrimLengthLe buf
      simp only [List.length_nil, List.length_cons] at h1 ⊢
      omega
    · rw [if_neg hc]
      have h1 := ih (buf ++ [c]) (if c = '[' then d + 1 else if c = ']' then d - 1 else d)
      simp only [List.length_append, List.length_cons, List.length_nil] at h1 ⊢
      omega

/-- The tokens of a scope are at most as long, in total, as the scope text. -/
theorem sumLenTokenizeLe (s : List Char) : sumLen (tokenize s) ≤ s.length := by
  have := sumLenTokenizeGoLe s [] 0
  simpa [tokenize] using this

/-- Dropping while a disequality holds stops at an occurrence of `a`. -/
theorem dropWhileNeHeadSome {l : List Char} {a : Char} (h : a ∈ l) :
    (l.dropWhile (fun c => c != a)).head? = some a := by
  induction l with
  | nil => simp at h
  | cons b t ih =>
    by_cases hb : b = a
    · subst hb
      rw [List.dropWhile_cons_of_neg (by simp)]
      simp
    · rw [List.dropWhile_cons_of_pos (by simp [hb])]
      rcases List.mem_cons.mp h with h1 | h1
      · exact absurd h1.symm hb
      · exact ih h1

/-- A `contains` hit is membership. -/
theorem containsMem {l : List Char} {a : Char} (h : l.contains a = true) : a ∈ l := by
  simpa using h

/-- A list with a `getLast?` is non-empty. -/
theorem getLastSomeNe {l : List Char} {a : Char} (h : l.getLast? = some a) : l ≠ [] := by
  intro hx
  rw [hx] at h
  simp at h

/-- Introduction for the lexicographic triple ordering used as the parser's
termination measure. -/
theorem lexHelper {a a' b b' c c' : Nat}
    (h : a < a' ∨ (a = a' ∧ (b < b' ∨ (b = b' ∧ c < c')))) :
    Prod.Lex (· < ·) (Prod.Lex (· < ·) (· < ·)) (a, b, c) (a', b', c') := by
  rcases h with h | ⟨rfl, h⟩
  · exact Prod.Lex.left _ _ h
  · rcases h with h | ⟨rfl, h⟩
    · exact Prod.Lex.right _ (Prod.Lex.left _ _ h)
    · exact Prod.Lex.right _ (Prod.Lex.right _ h)

mutual

/-- `parseValue` (src/index.ts:147-154): `null`, `true`, `false`, then the
numeric coercion (`!isNaN(Number(val))`), then a bracketed list, else the
raw token as a string. -/
def parseValue (val : List Char) : Value :=
  if val = ("null".data) then Value.null
  else if val = ("true".data) then Value.bool true
  else if val = ("false".data) then Value.bool false
  else
    match jsToNumber val with
    | some q => Value.num q
    | none =>
      if h : val.head? = some '[' ∧ val.getLast? = some ']' then
        Value.list 0 (parseList ((val.dropLast).drop 1))
      else
        Value.str (String.mk val)
termination_by (val.length, 0, 0)
decreasing_by
  · apply lexHelper
    left
    have hne : val ≠ [] := getLastSomeNe h.2
    have h1 : (val.dropLast.drop 1).length = val.dropLast.length - 1 := List.length_drop _ _
    have h2 : val.dropLast.length = val.length - 1 := List.length_dropLast _
    have h3 : 0 < val.length := List.length_pos.mpr hne
    omega

/-- `parseList` (src/index.ts:156): `tokenize(str).map(parseItem)`.  The
array created here gets reference `0`; no parsed object ever retains a list
value (see `parseItem`/`mergeItems`), so the reference never takes part in
any comparison below. -/
def parseList (s : List Char) : List Value :=
  (itemsOf (tokenize s)).map itemValue
termination_by (s.length, 3, 0)
decreasing_by
  · apply lexHelper
    have := sumLenTokenizeLe s
    omega

/-- `parseItem` (src/index.ts:158-170).  First branch: a token with `=` and
`[` that ends in `]` is a keyed sub-object — the key is the part of the text
before the first `[` up to its first `=`, the interior is parsed as an
object scope.  Second branch: split at the first `=`, the remainder is the
value text.  Third branch: a bare value. -/
def parseItem (item : List Char) : ParsedItem :=
  if h1 : item.contains '=' ∧ item.contains '[' ∧ item.getLast? = some ']' then
    ParsedItem.entry
      (String.mk ((item.take (item.findIdx (fun c => c == '['))).takeWhile (fun c => c != '=')))
      (Value.obj (parseObject ((item.dropLast).drop (item.findIdx (fun c => c == '[') + 1))))
  else if h2 : item.contains '=' then
    ParsedItem.entry
      (String.mk (item.takeWhile (fun c => c != '=')))
      (parseValue ((item.dropWhile (fun c => c != '=')).tail))
  else
    ParsedItem.bare (parseValue item)
termination_by (item.length, 1, 0)
decreasing_by
  · apply lexHelper
    left
    have hne : item ≠ [] := getLastSomeNe h1.2.2
    have ha : ((item.dropLast).drop (item.findIdx (fun c => c == '[') + 1)).length =
        item.dropLast.length - (item.findIdx (fun c => c == '[') + 1) := List.length_drop _ _
    have hb : item.dropLast.length = item.length - 1 := List.length_dropLast _
    have hc : 0 < item.length := List.length_pos.mpr hne
    omega
  · apply lexHelper
    left
    have hmem : '=' ∈ item := containsMem h2
    have hhd := dropWhileNeHeadSome hmem
    have ht := listHeadSomeTailLength hhd
    have hdw := listDropWhileLengthLe (fun c => c != '=') item
    omega
  · apply lexHelper
    right
    exact ⟨rfl, Or.inl (by omega)⟩

/-- `parseObject` (src/index.ts:172-181): parse every token of the scope and
merge the object-shaped results. -/
def parseObject (s : List Char) : JsObj :=
  mergeItems (itemsOf (tokenize s))
termination_by (s.length, 3, 0)
decreasing_by
  · apply lexHelper
    have := sumLenTokenizeLe s
    omega

/-- The `map parseItem` shared by `parseList` and `parseObject`, written as
explicit recursion over the token list. -/
def itemsOf : List (List Char) → List ParsedItem
  | [] => []
  | t :: ts => parseItem t :: itemsOf ts
termination_by ts => (sumLen ts, 2, ts.length)
decreasing_by
  · apply lexHelper
    have : t.length ≤ sumLen (t :: ts) := by simp [sumLen]
    rcases Nat.lt_or_ge t.length (sumLen (t :: ts)) with h | h
    · exact Or.inl h
    · exact Or.inr ⟨by omega, Or.inl (by omega)⟩
  · apply lexHelper
    have : sumLen ts ≤ sumLen (t :: ts) := by simp [sumLen]
    rcases Nat.lt_or_ge (sumLen ts) (sumLen (t :: ts)) with h | h
    · exact Or.inl h
    · exact Or.inr ⟨by omega, Or.inr ⟨rfl, by simp only [List.length_cons]; omega⟩⟩

end

/-- `parsePojoString` (src/index.ts:123-186): find the first `[` of the raw
input (`indexOf` yields `-1` when there is none, so the slice then starts at
position `0`), take the text between it and the final character (exclusive),
normalize that slice, and parse it as an object scope.  Note the source
slices the raw input first and normalizes the slice. -/
def parsePojoString (input : List Char) : JsObj :=
  parseObject
    (normalize
      (match input.findIdx? (fun c => c == '[') with
       | some i => (input.dropLast).drop (i + 1)
       | none => input.dropLast))

/-- `Diff` (src/index.ts:189-192): `missing-in-obj1` (the spec's
`MissingInFirst`), `missing-in-obj2` (`MissingInSecond`), and
`value-mismatch` (`ValueMismatch`). -/
inductive Diff where
  | missingInObj1 (path : String) (valueInObj2 : Value)
  | missingInObj2 (path : String) (valueInObj1 : Value)
  | valueMismatch (path : String) (valueInObj1 : Value) (valueInObj2 : Value)

/-- JavaScript property read `obj[key]` (and `key in obj` as `isSome`). -/
def lookup : JsObj → String → Option Value
  | [], _ => none
  | (k', v) :: rest, k => if k' = k then some v else lookup rest k

/-- `Object.keys`: the keys in insertion order. -/
def keysOf (o : JsObj) : List String :=
  o.map (fun e => e.1)

/-- `new Set([...])` iterated in insertion order: keep the first occurrence
of each element. -/
def dedupFirst : List String → List String
  | [] => []
  | x :: xs => x :: dedupFirst (xs.filter (fun y => y ≠ x))
termination_by l => l.length
decreasing_by
  · have := List.length_filter_le (fun y => y ≠ x) xs
    simp only [List.length_cons]
    omega

/-- `new Set([...Object.keys(obj1), ...Object.keys(obj2)])`
(src/index.ts:200). -/
def keyUnion (o1 o2 : JsObj) : List String :=
  dedupFirst (keysOf o1 ++ keysOf o2)

/-- `path ? `${path}.${key}` : key` (src/index.ts:203): the empty string is
falsy. -/
def joinPath (path k : String) : String :=
  if path = "" then k else path ++ "." ++ k

/-- JavaScript strict equality `===` as the differ applies it
(src/index.ts:220, `val1 !== val2`): value equality on `null`, booleans,
numbers and strings; reference equality on arrays (two arrays are `===`
exactly when they are the same object, which the `ref` field witnesses).
The differ never reaches this comparison with two plain objects — that case
recurses instead — so the `obj`/`obj` clause is unreachable from
`diffObjects`; JavaScript would compare references there, and we return
`false` (the result for two distinct objects). -/
def strictEq : Value → Value → Bool
  | .null, .null => true
  | .bool a, .bool b => a == b
  | .num a, .num b => a == b
  | .str a, .str b => a == b
  | .list r1 _, .list r2 _ => r1 == r2
  | _, _ => false

/-- A value stored in a record is structurally smaller than the record. -/
theorem lookupSizeLt {o : JsObj} {k : String} {v : Value} (h : lookup o k = some v) :
    sizeOf v < sizeOf o := by
  induction o with
  | nil => simp [lookup] at h
  | cons e rest ih =>
    obtain ⟨k', v'⟩ := e
    simp only [lookup] at h
    by_cases hk : k' = k
    · rw [if_pos hk] at h
      cases h
      simp only [List.cons.sizeOf_spec, Prod.mk.sizeOf_spec]
      omega
    · rw [if_neg hk] at h
      have := ih h
      simp only [List.cons.sizeOf_spec]
      omega

mutual

/-- `diffObjects` (src/index.ts:194-226): iterate over the union of the key
sets, in insertion order. -/
def diffObjects (obj1 obj2 : JsObj) (path : String) : List Diff :=
  diffKeys obj1 obj2 path (keyUnion obj1 obj2)
termination_by (sizeOf obj1, 2, 0)
decreasing_by
  · apply lexHelper
    right
    exact ⟨rfl, Or.inl (by omega)⟩

/-- The body of the differ's `for (const key of keys)` loop
(src/index.ts:202-223), one key at a time: a key absent from the first
record yields `missing-in-obj1`, absent from the second yields
`missing-in-obj2`; two plain objects recurse; otherwise a strict-inequality
check yields `value-mismatch`.  The `none, none` arm is unreachable — every
key handed to the loop comes from the union of the two key sets. -/
def diffKeys (obj1 obj2 : JsObj) (path : String) : List String → List Diff
  | [] => []
  | k :: ks =>
    (match h1 : lookup obj1 k, h2 : lookup obj2 k with
     | none, some v2 => [Diff.missingInObj1 (joinPath path k) v2]
     | some v1, none => [Diff.missingInObj2 (joinPath path k) v1]
     | some (.obj es1), some (.obj es2) => diffObjects es1 es2 (joinPath path k)
     | some v1, some v2 =>
       if strictEq v1 v2 then [] else [Diff.valueMismatch (joinPath path k) v1 v2]
     | none, none => [])
    ++ diffKeys obj1 obj2 path ks
termination_by ks => (sizeOf obj1, 1, ks.length)
decreasing_by
  · apply lexHelper
    left
    have hlt := lookupSizeLt h1
    simp only [Value.obj.sizeOf_spec] at hlt
    omega
  · apply lexHelper
    right
    exact ⟨rfl, Or.inr ⟨rfl, by simp only [List.length_cons]; omega⟩⟩

end

/-- Claim-side formalisation of the tokenizer description: split the input at
every comma whose (updated) bracket depth is `0`, keeping every segment —
including a trailing empty one. -/
def splitTopGo : List Char → List Char → Int → List (List Char)
  | [], buf, _ => [buf]
  | c :: cs, buf, depth =>
    if c = ',' ∧ (if c = '[' then depth + 1 else if c = ']' then depth - 1 else depth) = 0 then
      buf :: splitTopGo cs [] (if c = '[' then depth + 1 else if c = ']' then depth - 1 else depth)
    else
      splitTopGo cs (buf ++ [c])
        (if c = '[' then depth + 1 else if c = ']' then depth - 1 else depth)

/-- Claim-side tokenizer: split at depth-0 commas, then trim every emitted
segment. -/
def specTokenize (s : List Char) : List (List Char) :=
  (splitTopGo s [] 0).map jsTrim

/-- Claim-side preprocessing pipeline of the parser, following the spec text:
normalize the whole input first, then locate the first `[` of the
*normalized* text (failing with `none` — the `NoOpeningBracket` error — when
there is none) and slice between it and the final character, exclusive. -/
def specContent (input : List Char) : Option (List Char) :=
  match (normalize input).findIdx? (fun c => c == '[') with
  | some i => some (((normalize input).dropLast).drop (i + 1))
  | none => none

/-- Index of the first `[`, written as plain recursion (used to state the
implementation's preprocessing pipeline independently of `parsePojoString`). -/
def bracketIdx : List Char → Option Nat
  | [] => none
  | c :: cs => if c = '[' then some 0 else (bracketIdx cs).map (fun i => i + 1)

/-- The implementation's preprocessing pipeline: slice the *raw* input
between its first `[` (from position `0` when there is none, matching
`indexOf` returning `-1`) and its final character, exclusive, and normalize
the slice afterwards. -/
def implContent (input : List Char) : List Char :=
  normalize
    (match bracketIdx input with
     | some i => (input.dropLast).drop (i + 1)
     | none => input.dropLast)

/-- Relabelling of a `Diff` entry between `diff(A,B)` and `diff(B,A)`:
missing-in-first and missing-in-second trade places, a mismatch swaps its
two values. -/
def swapDiff : Diff → Diff
  | .missingInObj1 p v => .missingInObj2 p v
  | .missingInObj2 p v => .missingInObj1 p v
  | .valueMismatch p a b => .valueMismatch p b a

/-- Whether a value is a plain object. -/
def Value.isObj : Value → Bool
  | .obj _ => true
  | _ => false

/-- Whether a value is a list. -/
def Value.isList : Value → Bool
  | .list _ _ => true
  | _ => false

/-- The element sequence of a list value (empty for non-lists); two list
values are element-wise equal when these coincide. -/
def listElems : Value → List Value
  | .list _ es => es
  | _ => []

/-- The values bound to key `k` by the object-shaped results of a sequence of
`parseItem` outcomes, in order. -/
def entryValuesFor (k : String) (items : List ParsedItem) : List Value :=
  items.filterMap
    (fun it =>
      match it with
      | .entry k' v => if k' = k then some v else none
      | .bare _ => none)

/-- The value bound to key `k` by the *last* token of a scope that binds it:
the claim-side description of `parseObject`'s merge-by-assignment result. -/
def lastEntryVal (k : String) (toks : List (List Char)) : Option Value :=
  (entryValuesFor k (toks.map parseItem)).getLast?

/-! ### Claim theorems -/

/-- C1: parsing `Person[name=Alice, age=30, address=Address[city=NYC,
zip=<null>]]` and `Person[name=Alice, age=31, address=Address[city=NYC,
zip=<null>], email=a@x.com]` and diffing the two trees yields exactly two
entries: a `ValueMismatch` at path `age` (30 vs 31) and a `MissingInFirst`
at path `email` (value `"a@x.com"`); no entry with a path under `address`
appears. -/
theorem c1_end_to_end_diff :
    diffObjects
      (parsePojoString ("Person[name=Alice, age=30, address=Address[city=NYC, zip=<null>]]".data))
      (parsePojoString
        ("Person[name=Alice, age=31, address=Address[city=NYC, zip=<null>], email=a@x.com]".data))
      "" =
      [Diff.valueMismatch "age" (Value.num 30) (Value.num 31),
       Diff.missingInObj1 "email" (Value.str "a@x.com")] := by
  simp [parsePojoString, parseObject, parseItem, parseValue, itemsOf, mergeItems,
    assign, normalize, stripClassNames, replaceAll, tokenize, tokenizeGo, jsTrim,
    jsIsWhitespace, jsToNumber, isWordChar, digitsToNat, expPart, diffObjects, diffKeys,
    keyUnion, keysOf, dedupFirst, lookup, joinPath, strictEq,
    List.findIdx, List.findIdx.go, List.take, String.ext_iff]

/-- C2 counterexample: parsing `Foo[tags=[a, b, c]]` binds `tags` to the
*empty object*, which is not a `List` value at all — the claimed binding to
the list of the three strings `"a"`, `"b"`, `"c"` is false.  The token
`tags=[a, b, c]` contains `=` and `[` and ends with `]`, so `parseItem`
routes it to the keyed-sub-object branch, and `parseObject` drops the bare
scalars `a`, `b`, `c`. -/
theorem c2_counterexample :
    parsePojoString ("Foo[tags=[a, b, c]]".data) = [("tags", Value.obj [])] ∧
      Value.isObj (Value.obj []) = true ∧ Value.isList (Value.obj []) = false := by
  refine ⟨?_, rfl, rfl⟩
  simp [parsePojoString, parseObject, parseItem, parseValue, itemsOf, mergeItems,
    assign, normalize, stripClassNames, replaceAll, tokenize, tokenizeGo, jsTrim,
    jsIsWhitespace, jsToNumber, isWordChar, digitsToNat, expPart,
    List.findIdx, List.findIdx.go, List.take, String.ext_iff]

/-- C2 amended: parsing `Foo[tags=[a, b, c]]` yields an object whose key
`tags` maps to the empty `Object`: the token `tags=[a, b, c]` matches the
keyed-sub-object branch of `parseItem` (it contains `=`, contains `[` and
ends with `]`), and the interior `a, b, c` is parsed as an object scope
whose bare scalars are dropped. -/
theorem c2_amended :
    parsePojoString ("Foo[tags=[a, b, c]]".data) = [("tags", Value.obj [])] := by
  simp [parsePojoString, parseObject, parseItem, parseValue, itemsOf, mergeItems,
    assign, normalize, stripClassNames, replaceAll, tokenize, tokenizeGo, jsTrim,
    jsIsWhitespace, jsToNumber, isWordChar, digitsToNat, expPart,
    List.findIdx, List.findIdx.go, List.take, String.ext_iff]

/-- C3 counterexample: on the bracket-free input `a=1` the parser does not
fail at all — `indexOf` yields `-1`, the code slices off the final
character, and the call *returns the value* `{a: 0}` (the text `a=` parses
`a` to the number `0`). -/
theorem c3_counterexample :
    parsePojoString ("a=1".data) = [("a", Value.num 0)] := by
  simp [parsePojoString, parseObject, parseItem, parseValue, itemsOf, mergeItems,
    assign, normalize, stripClassNames, replaceAll, tokenize, tokenizeGo, jsTrim,
    jsIsWhitespace, jsToNumber, isWordChar, digitsToNat, expPart,
    List.findIdx, List.findIdx.go, List.take, String.ext_iff]

/-- C5 counterexample: two list values with element-wise equal contents under
the same key *do* produce a `ValueMismatch` when they are distinct array
objects (`!==` compares arrays by reference): the differ emits a mismatch
for `{k: [1]}` vs `{k: [1]}` built as two separate arrays. -/
theorem c5_counterexample :
    listElems (Value.list 0 [Value.num 1]) = listElems (Value.list 1 [Value.num 1]) ∧
      diffObjects [("k", Value.list 0 [Value.num 1])] [("k", Value.list 1 [Value.num 1])] "" =
        [Diff.valueMismatch "k" (Value.list 0 [Value.num 1]) (Value.list 1 [Value.num 1])] := by
  refine ⟨rfl, ?_⟩
  simp [diffObjects, diffKeys, keyUnion, keysOf, dedupFirst, lookup, joinPath, strictEq]

/-- C7 counterexample: `tokenize` is not the trimmed depth-0-comma split.
On `a,` the split yields the two segments `a` and the empty trailing
segment, but `tokenize` emits only `a` — the final empty buffer is not
pushed (`if (buf)`). -/
theorem c7_counterexample :
    tokenize ("a,".data) = [("a".data)] ∧
      specTokenize ("a,".data) = [("a".data), []] ∧
      tokenize ("a,".data) ≠ specTokenize ("a,".data) := by
  refine ⟨?_, ?_, ?_⟩ <;> decide

/-- C9 counterexample: the spec-side normalize-then-slice pipeline is not
extensionally equal to the implementation's.  On `Foo[a=b[` the
implementation slices first (around the first `[` of the raw input) and
then normalizes, handing `a=b` to object assembly; normalizing first turns
the input into `Foo[a=[` (the class-name stripping consumes the trailing
region including the final character), so the spec pipeline hands over
`a=` instead. -/
theorem c9_counterexample :
    specContent ("Foo[a=b[".data) = some ("a=".data) ∧
      implContent ("Foo[a=b[".data) = ("a=b".data) ∧
      parsePojoString ("Foo[a=b[".data) = [("a", Value.str "b")] ∧
      specContent ("Foo[a=b[".data) ≠ some (implContent ("Foo[a=b[".data)) := by
  have h1 : specContent ("Foo[a=b[".data) = some ("a=".data) := by
    simp [specContent, normalize, stripClassNames, replaceAll, isWordChar, List.findIdx?]
  have h2 : implContent ("Foo[a=b[".data) = ("a=b".data) := by
    simp [implContent, bracketIdx, normalize, stripClassNames, replaceAll, isWordChar]
  refine ⟨h1, h2, ?_, ?_⟩
  · simp [parsePojoString, parseObject, parseItem, parseValue, itemsOf, mergeItems,
      assign, normalize, stripClassNames, replaceAll, tokenize, tokenizeGo, jsTrim,
      jsIsWhitespace, jsToNumber, isWordChar, digitsToNat, expPart,
      List.findIdx, List.findIdx.go, List.take, String.ext_iff]
  · rw [h1, h2]
    decide

/-- C10: `parseValue` maps the empty token, and any whitespace-only token,
to the number `0` rather than a string — `Number('')` and `Number('  ')`
are `0`, and the numeric check runs before the string fallback; hence
parsing `Foo[a=]` binds `a` to the number `0`. -/
theorem c10_empty_token_is_zero :
    parseValue [] = Value.num 0 ∧
      (∀ s : List Char, (∀ c ∈ s, jsIsWhitespace c = true) → parseValue s = Value.num 0) ∧
      parsePojoString ("Foo[a=]".data) = [("a", Value.num 0)] := by
  refine ⟨?_, ?_, ?_⟩
  · simp [parseValue, jsToNumber, jsTrim]
  · intro s h
    have hnull : s ≠ ("null".data) := by
      intro hs
      subst hs
      exact absurd (h 'n' (by decide)) (by decide)
    have htrue : s ≠ ("true".data) := by
      intro hs
      subst hs
      exact absurd (h 't' (by decide)) (by decide)
    have hfalse : s ≠ ("false".data) := by
      intro hs
      subst hs
      exact absurd (h 'f' (by decide)) (by decide)
    have htrim : jsTrim s = [] := by
      have hdw : s.dropWhile jsIsWhitespace = [] := List.dropWhile_eq_nil_iff.mpr h
      simp [jsTrim, hdw]
    have hnum : jsToNumber s = some 0 := by
      simp [jsToNumber, htrim]
    rw [parseValue]
    rw [if_neg hnull, if_neg htrue, if_neg hfalse, hnum]
  · simp [parsePojoString, parseObject, parseItem, parseValue, itemsOf, mergeItems,
      assign, normalize, stripClassNames, replaceAll, tokenize, tokenizeGo, jsTrim,
      jsIsWhitespace, jsToNumber, isWordChar, digitsToNat, expPart,
      List.findIdx, List.findIdx.go, List.take, String.ext_iff]

/-- C10 witness: the whitespace-only token `" "` parses to the number `0`. -/
theorem c10_witness :
    (∀ c ∈ (" ".data), jsIsWhitespace c = true) ∧ parseValue (" ".data) = Value.num 0 :=
  ⟨by decide, c10_empty_token_is_zero.2.1 (" ".data) (by decide)⟩

/-- No `[` in a list means `findIdx?` finds nothing. -/
theorem findIdxNoBracket {input : List Char} (h : '[' ∉ input) :
    input.findIdx? (fun c => c == '[') = none := by
  refine List.findIdx?_eq_none_iff.mpr ?_
  intro x hx
  simp only [beq_eq_false_iff_ne, ne_eq]
  intro hxe
  exact h (hxe ▸ hx)

/-- C3 amended: on an input with no `[` the parser does not fail — there is
no error path in the implementation.  `indexOf` returns `-1`, so the slice
starts at position `0`: the parser normalizes the input minus its final
character and parses that as an object scope, returning a (possibly empty)
record. -/
theorem c3_amended_no_failure (input : List Char) (h : '[' ∉ input) :
    parsePojoString input = parseObject (normalize input.dropLast) := by
  rw [parsePojoString, findIdxNoBracket h]

/-- C3 amended witness: the bracket-free input `a=1` parses (to `{a: 0}`,
by `c3_counterexample`) instead of failing. -/
theorem c3_amended_witness :
    '[' ∉ ("a=1".data) ∧
      parsePojoString ("a=1".data) = parseObject (normalize ("a=1".data).dropLast) :=
  ⟨by decide, c3_amended_no_failure ("a=1".data) (by decide)⟩

/-- A record has positive size. -/
theorem jsObjSizePos (o : JsObj) : 0 < sizeOf o := by
  cases o with
  | nil => simp
  | cons e rest => simp only [List.cons.sizeOf_spec]; omega

/-- The differ's key loop emits nothing when both records are the same tree:
every key looks up the same value on both sides, scalars and lists are
strictly equal to themselves, and sub-objects recurse. -/
theorem diffKeysSelf :
    ∀ (n : Nat) (o : JsObj) (path : String) (ks : List String),
      sizeOf o ≤ n → diffKeys o o path ks = [] := by
  intro n
  induction n with
  | zero =>
    intro o path ks h
    exact absurd h (by have := jsObjSizePos o; omega)
  | succ n ih =>
    intro o path ks h
    induction ks with
    | nil => rw [diffKeys]
    | cons k ks ihks =>
      rw [diffKeys, ihks, List.append_nil]
      cases hl : lookup o k with
      | none => simp
      | some v =>
        cases v with
        | obj es =>
          simp only []
          rw [diffObjects]
          apply ih
          have := lookupSizeLt hl
          simp only [Value.obj.sizeOf_spec] at this
          omega
        | null => simp [strictEq]
        | bool b => simp [strictEq]
        | num q => simp [strictEq]
        | str s => simp [strictEq]
        | list r es => simp [strictEq]

/-- C4: `diff(X, X)` with empty path prefix is the empty sequence, for every
record tree `X` — including deeply nested and empty objects. -/
theorem c4_diff_self (X : JsObj) : diffObjects X X "" = [] := by
  rw [diffObjects]
  exact diffKeysSelf (sizeOf X) X "" (keyUnion X X) (Nat.le_refl _)

/-- One step of `parseObject`'s accumulation loop (named form of the lambda
in `mergeItems`). -/
def mergeStep (acc : JsObj) (it : ParsedItem) : JsObj :=
  match it with
  | .entry k v => assign acc k v
  | .bare _ => acc

/-- `mergeItems` is the fold of `mergeStep`. -/
theorem mergeItemsEq (items : List ParsedItem) :
    mergeItems items = items.foldl mergeStep [] := rfl

/-- `itemsOf` is `map parseItem`. -/
theorem itemsOfEqMap : ∀ ts : List (List Char), itemsOf ts = ts.map parseItem := by
  intro ts
  induction ts with
  | nil => rw [itemsOf, List.map_nil]
  | cons t ts ih => rw [itemsOf, ih, List.map_cons]

/-- Lookup after an assignment: the assigned key reads back the new value,
every other key is unaffected. -/
theorem lookupAssign (o : JsObj) (k k2 : String) (v : Value) :
    lookup (assign o k v) k2 = if k = k2 then some v else lookup o k2 := by
  induction o with
  | nil => simp [assign, lookup]
  | cons e rest ih =>
    obtain ⟨k', v'⟩ := e
    by_cases hk : k' = k
    · subst hk
      simp only [assign, if_pos rfl, lookup]
      by_cases h2 : k' = k2
      · rw [if_pos h2, if_pos h2]
      · simp [h2]
    · simp only [assign, if_neg hk, lookup]
      by_cases h2 : k' = k2
      · rw [if_pos h2, if_pos h2, if_neg (fun he => hk (by rw [h2, he]))]
      · rw [if_neg h2, ih]
        simp [h2]

/-- Keys after an assignment: an existing key leaves the key list unchanged,
a fresh key is appended. -/
theorem keysAssign (o : JsObj) (k : String) (v : Value) :
    keysOf (assign o k v) = if k ∈ keysOf o then keysOf o else keysOf o ++ [k] := by
  induction o with
  | nil => simp [assign, keysOf]
  | cons e rest ih =>
    obtain ⟨k', v'⟩ := e
    by_cases hk : k' = k
    · subst hk
      simp [assign, keysOf]
    · simp only [assign, if_neg hk, keysOf, List.map_cons] at ih ⊢
      rw [ih]
      by_cases hm : k ∈ List.map (fun e => e.1) rest
      · rw [if_pos hm, if_pos (List.mem_cons_of_mem _ hm)]
      · rw [if_neg hm, if_neg ?_, List.cons_append]
        intro hcm
        rcases List.mem_cons.mp hcm with he | he
        · exact hk he.symm
        · exact hm he

/-- The merge loop keeps the key list duplicate-free. -/
theorem nodupMergeAux :
    ∀ (items : List ParsedItem) (acc : JsObj),
      (keysOf acc).Nodup → (keysOf (items.foldl mergeStep acc)).Nodup := by
  intro items
  induction items with
  | nil => intro acc h; exact h
  | cons it items ih =>
    intro acc h
    rw [List.foldl_cons]
    apply ih
    cases it with
    | bare v => exact h
    | entry k v =>
      simp only [mergeStep, keysAssign]
      by_cases hm : k ∈ keysOf acc
      · rw [if_pos hm]; exact h
      · rw [if_neg hm]
        simp [List.nodup_append, h, hm]

/-- Auxiliary form of `List.getLast?` on a cons cell. -/
theorem getLastConsEq {α : Type _} (a : α) (l : List α) :
    (a :: l).getLast? =
      match l.getLast? with
      | some w => some w
      | none => some a := by
  cases l with
  | nil => rfl
  | cons b t =>
    rw [List.getLast?_cons_cons]
    cases h : (b :: t).getLast? with
    | some w => rfl
    | none =>
      rcases List.getLast?_eq_none_iff.mp h with h2
      cases h2

/-- The value a key reads back after the merge loop: the last value bound to
it by an object-shaped item, else whatever the accumulator held. -/
theorem lookupMergeAux (k : String) :
    ∀ (items : List ParsedItem) (acc : JsObj),
      lookup (items.foldl mergeStep acc) k =
        match (entryValuesFor k items).getLast? with
        | some v => some v
        | none => lookup acc k := by
  intro items
  induction items with
  | nil => intro acc; simp [entryValuesFor]
  | cons it items ih =>
    intro acc
    rw [List.foldl_cons, ih]
    cases it with
    | bare v =>
      have he : entryValuesFor k (ParsedItem.bare v :: items) = entryValuesFor k items := by
        simp [entryValuesFor]
      rw [he]
      cases hg : (entryValuesFor k items).getLast? with
      | some w => rfl
      | none => simp [mergeStep]
    | entry k2 v =>
      by_cases hk : k2 = k
      · subst hk
        have he : entryValuesFor k2 (ParsedItem.entry k2 v :: items) =
            v :: entryValuesFor k2 items := by
          simp [entryValuesFor]
        rw [he, getLastConsEq]
        cases hg : (entryValuesFor k2 items).getLast? with
        | some w => rfl
        | none => simp [mergeStep, lookupAssign]
      · have he : entryValuesFor k (ParsedItem.entry k2 v :: items) = entryValuesFor k items := by
          simp [entryValuesFor, hk]
        rw [he]
        cases hg : (entryValuesFor k items).getLast? with
        | some w => rfl
        | none => simp [mergeStep, lookupAssign, hk]

/-- C8: `parseObject` is the left-to-right fold over the scope's tokens that
merges each object-shaped `parseItem` result with assignment (later tokens
overwrite earlier ones) and contributes nothing for bare results;
consequently the key list is duplicate-free, and a key bound by several
tokens reads back the value of the last token binding it. -/
theorem c8_parse_object_fold :
    (∀ s : List Char,
      parseObject s =
        (tokenize s).foldl
          (fun acc t =>
            match parseItem t with
            | .entry k v => assign acc k v
            | .bare _ => acc)
          []) ∧
    (∀ s : List Char, (keysOf (parseObject s)).Nodup) ∧
    (∀ (s : List Char) (k : String), lookup (parseObject s) k = lastEntryVal k (tokenize s)) := by
  have hfold : ∀ s : List Char,
      parseObject s =
        (tokenize s).foldl
          (fun acc t =>
            match parseItem t with
            | .entry k v => assign acc k v
            | .bare _ => acc)
          [] := by
    intro s
    rw [parseObject, mergeItemsEq, itemsOfEqMap, List.foldl_map]
    rfl
  refine ⟨hfold, ?_, ?_⟩
  · intro s
    rw [parseObject, mergeItemsEq]
    exact nodupMergeAux (itemsOf (tokenize s)) [] (by simp [keysOf])
  · intro s k
    rw [parseObject, mergeItemsEq, lookupMergeAux, lastEntryVal, itemsOfEqMap]
    cases hg : (entryValuesFor k ((tokenize s).map parseItem)).getLast? with
    | some w => rfl
    | none => simp [lookup]

/-- Swapping a diff entry twice is the identity. -/
theorem swapDiffInvol (d : Diff) : swapDiff (swapDiff d) = d := by
  cases d <;> rfl

/-- Strict equality is symmetric. -/
theorem strictEqSymm (a b : Value) : strictEq a b = strictEq b a := by
  cases a <;> cases b <;> simp [strictEq, BEq.comm]

/-- Membership in `dedupFirst` is membership in the original list. -/
theorem memDedupFirst (a : String) :
    ∀ (n : Nat) (l : List String), l.length ≤ n → (a ∈ dedupFirst l ↔ a ∈ l) := by
  intro n
  induction n with
  | zero =>
    intro l h
    have : l = [] := List.length_eq_zero.mp (Nat.le_zero.mp h)
    subst this
    rw [dedupFirst]
  | succ n ih =>
    intro l h
    cases l with
    | nil => rw [dedupFirst]
    | cons x xs =>
      rw [dedupFirst]
      have hlen : (xs.filter (fun y => y ≠ x)).length ≤ n := by
        have := List.length_filter_le (fun y => y ≠ x) xs
        simp only [List.length_cons] at h
        omega
      by_cases hax : a = x
      · subst hax
        simp
      · simp only [List.mem_cons, hax, false_or]
        rw [ih _ hlen]
        simp [List.mem_filter, hax]

/-- `dedupFirst` gives a duplicate-free list. -/
theorem dedupFirstNodup :
    ∀ (n : Nat) (l : List String), l.length ≤ n → (dedupFirst l).Nodup := by
  intro n
  induction n with
  | zero =>
    intro l h
    have : l = [] := List.length_eq_zero.mp (Nat.le_zero.mp h)
    subst this
    rw [dedupFirst]
    exact List.nodup_nil
  | succ n ih =>
    intro l h
    cases l with
    | nil => rw [dedupFirst]; exact List.nodup_nil
    | cons x xs =>
      rw [dedupFirst]
      have hlen : (xs.filter (fun y => y ≠ x)).length ≤ n := by
        have := List.length_filter_le (fun y => y ≠ x) xs
        simp only [List.length_cons] at h
        omega
      refine List.Nodup.cons ?_ (ih _ hlen)
      intro hmem
      have hx : x ∈ xs.filter (fun y => y ≠ x) := (memDedupFirst x _ _ hlen).mp hmem
      simp [List.mem_filter] at hx

/-- The key union of `A, B` is a permutation of the key union of `B, A`:
both are duplicate-free enumerations of the same set of keys. -/
theorem keyUnionPerm (A B : JsObj) : (keyUnion A B).Perm (keyUnion B A) := by
  refine (List.perm_ext_iff_of_nodup ?_ ?_).mpr ?_
  · exact dedupFirstNodup _ _ (Nat.le_refl _)
  · exact dedupFirstNodup _ _ (Nat.le_refl _)
  · intro a
    rw [keyUnion, keyUnion, memDedupFirst a _ _ (Nat.le_refl _),
      memDedupFirst a _ _ (Nat.le_refl _)]
    simp [Or.comm]

/-- The key loop respects permutations of the key list, up to permutation of
the emitted entries. -/
theorem diffKeysPerm (o1 o2 : JsObj) (path : String) :
    ∀ {ks ks' : List String}, ks.Perm ks' →
      (diffKeys o1 o2 path ks).Perm (diffKeys o1 o2 path ks') := by
  intro ks ks' h
  induction h with
  | nil => rfl
  | cons x h ih =>
    rw [diffKeys, diffKeys]
    exact List.Perm.append (List.Perm.refl _) ih
  | swap x y l =>
    rw [diffKeys, diffKeys, diffKeys, diffKeys, ← List.append_assoc, ← List.append_assoc]
    exact List.Perm.append List.perm_append_comm (List.Perm.refl _)
  | trans h1 h2 ih1 ih2 => exact ih1.trans ih2

/-- The mismatch branch is symmetric up to `swapDiff`. -/
theorem mismatchSwap (p : String) (X Y : Value) :
    (if strictEq X Y then ([] : List Diff) else [Diff.valueMismatch p X Y]).Perm
      ((if strictEq Y X then ([] : List Diff) else [Diff.valueMismatch p Y X]).map swapDiff) := by
  rw [strictEqSymm Y X]
  cases strictEq X Y <;> simp [swapDiff]

/-- Swapping the two records swaps every emitted entry: `diff(B,A)` on any
key list is, up to permutation, the `swapDiff` relabelling of `diff(A,B)`
on the same key list. -/
theorem diffKeysSwapAux :
    ∀ (n : Nat) (A B : JsObj) (path : String) (ks : List String),
      sizeOf A + sizeOf B ≤ n →
      (diffKeys B A path ks).Perm ((diffKeys A B path ks).map swapDiff) := by
  intro n
  induction n with
  | zero =>
    intro A B path ks h
    exact absurd h (by have := jsObjSizePos A; have := jsObjSizePos B; omega)
  | succ n ih =>
    intro A B path ks h
    induction ks with
    | nil => rw [diffKeys, diffKeys]; rfl
    | cons k ks ihks =>
      rw [diffKeys, diffKeys, List.map_append]
      refine List.Perm.append ?_ ihks
      cases h1 : lookup B k with
      | none =>
        cases h2 : lookup A k with
        | none => simp
        | some v => simp [swapDiff]
      | some vB =>
        cases h2 : lookup A k with
        | none => simp [swapDiff]
        | some vA =>
          cases vB with
          | obj esB =>
            cases vA with
            | obj esA =>
              show (diffObjects esB esA (joinPath path k)).Perm
                (List.map swapDiff (diffObjects esA esB (joinPath path k)))
              rw [diffObjects, diffObjects]
              have hszB := lookupSizeLt h1
              have hszA := lookupSizeLt h2
              simp only [Value.obj.sizeOf_spec] at hszB hszA
              exact (diffKeysPerm esB esA (joinPath path k) (keyUnionPerm esB esA)).trans
                (ih esA esB (joinPath path k) (keyUnion esA esB) (by omega))
            | null => exact mismatchSwap _ _ _
            | bool b => exact mismatchSwap _ _ _
            | num q => exact mismatchSwap _ _ _
            | str s => exact mismatchSwap _ _ _
            | list r es => exact mismatchSwap _ _ _
          | null => cases vA <;> exact mismatchSwap _ _ _
          | bool b => cases vA <;> exact mismatchSwap _ _ _
          | num q => cases vA <;> exact mismatchSwap _ _ _
          | str s => cases vA <;> exact mismatchSwap _ _ _
          | list r es => cases vA <;> exact mismatchSwap _ _ _

/-- Membership in a `swapDiff`-relabelled list. -/
theorem memMapSwap {d : Diff} {l : List Diff} : d ∈ l.map swapDiff ↔ swapDiff d ∈ l := by
  constructor
  · intro h
    rcases List.mem_map.mp h with ⟨a, ha, hae⟩
    rw [← hae, swapDiffInvol]
    exact ha
  · intro h
    exact List.mem_map.mpr ⟨swapDiff d, h, swapDiffInvol d⟩

/-- An entry of `diff(B,A)` is exactly the `swapDiff` relabelling of an
entry of `diff(A,B)`. -/
theorem diffSwapMem (A B : JsObj) (d : Diff) :
    d ∈ diffObjects B A "" ↔ swapDiff d ∈ diffObjects A B "" := by
  rw [diffObjects, diffObjects]
  have hp : (diffKeys B A "" (keyUnion B A)).Perm
      ((diffKeys A B "" (keyUnion A B)).map swapDiff) :=
    (diffKeysPerm B A "" (keyUnionPerm B A)).trans
      (diffKeysSwapAux (sizeOf A + sizeOf B) A B "" (keyUnion A B) (Nat.le_refl _))
  rw [hp.mem_iff, memMapSwap]

/-- C6: the differ is symmetric up to relabelling — the `MissingInFirst`
entries of `diff(A,B)` are the `MissingInSecond` entries of `diff(B,A)` and
vice versa, with identical paths and values, and the `ValueMismatch` entries
of `diff(A,B)` are those of `diff(B,A)` with the same paths and the two
values swapped. -/
theorem c6_symmetry (A B : JsObj) :
    (∀ (p : String) (v : Value),
      Diff.missingInObj1 p v ∈ diffObjects A B "" ↔
        Diff.missingInObj2 p v ∈ diffObjects B A "") ∧
    (∀ (p : String) (v : Value),
      Diff.missingInObj2 p v ∈ diffObjects A B "" ↔
        Diff.missingInObj1 p v ∈ diffObjects B A "") ∧
    (∀ (p : String) (v1 v2 : Value),
      Diff.valueMismatch p v1 v2 ∈ diffObjects A B "" ↔
        Diff.valueMismatch p v2 v1 ∈ diffObjects B A "") := by
  refine ⟨?_, ?_, ?_⟩
  · intro p v
    exact (diffSwapMem A B (Diff.missingInObj2 p v)).symm
  · intro p v
    exact (diffSwapMem A B (Diff.missingInObj1 p v)).symm
  · intro p v1 v2
    exact (diffSwapMem A B (Diff.valueMismatch p v2 v1)).symm

/-- The depth-0 split always produces at least one segment. -/
theorem splitTopGoNe : ∀ (s buf : List Char) (d : Int), splitTopGo s buf d ≠ [] := by
  intro s
  induction s with
  | nil => intro buf d; simp [splitTopGo]
  | cons c cs ih =>
    intro buf d
    rw [splitTopGo]
    by_cases hc :
        c = ',' ∧ (if c = '[' then d + 1 else if c = ']' then d - 1 else d) = 0
    · rw [if_pos hc]
      simp
    · rw [if_neg hc]
      exact ih _ _

/-- `tokenize` against the claim-side split: it emits the trimmed depth-0
segments, except that a final raw-empty segment is dropped. -/
theorem tokenizeGoSplit :
    ∀ (s buf : List Char) (d : Int),
      tokenizeGo s buf d =
        if (splitTopGo s buf d).getLast? = some [] then
          ((splitTopGo s buf d).dropLast).map jsTrim
        else (splitTopGo s buf d).map jsTrim := by
  intro s
  induction s with
  | nil =>
    intro buf d
    rw [tokenizeGo, splitTopGo]
    by_cases hb : buf = []
    · subst hb
      simp
    · rw [if_neg hb, if_neg (by simpa using hb)]
      simp
  | cons c cs ih =>
    intro buf d
    rw [tokenizeGo, splitTopGo]
    by_cases hc :
        c = ',' ∧ (if c = '[' then d + 1 else if c = ']' then d - 1 else d) = 0
    · rw [if_pos hc, if_pos hc]
      cases hr : splitTopGo cs [] (if c = '[' then d + 1 else if c = ']' then d - 1 else d) with
      | nil => exact absurd hr (splitTopGoNe _ _ _)
      | cons r rs =>
        rw [ih, hr]
        rw [List.getLast?_cons_cons]
        by_cases hlast : (r :: rs).getLast? = some []
        · rw [if_pos hlast, if_pos hlast]
          simp [List.dropLast]
        · rw [if_neg hlast, if_neg hlast]
          simp
    · rw [if_neg hc, if_neg hc]
      exact ih _ _

/-- C7 amended: `tokenize` splits its input at exactly those commas occurring
at bracket depth 0 and trims each emitted token, except that a trailing
raw-empty segment is not emitted (the source pushes the final buffer only
when it is non-empty); in particular, tokenizing the outer scope of
`Foo[a=1, b=[x=2, y=3], c=4]` yields exactly the three tokens `a=1`,
`b=[x=2, y=3]` and `c=4`. -/
theorem c7_amended :
    (∀ s : List Char,
      tokenize s =
        if (splitTopGo s [] 0).getLast? = some [] then
          ((splitTopGo s [] 0).dropLast).map jsTrim
        else (splitTopGo s [] 0).map jsTrim) ∧
    tokenize ("a=1, b=[x=2, y=3], c=4".data) =
      [("a=1".data), ("b=[x=2, y=3]".data), ("c=4".data)] := by
  refine ⟨?_, by decide⟩
  intro s
  rw [tokenize, tokenizeGoSplit]

/-- C5 amended: when a key is present in both records and at least one of
its two values is not a plain object, the loop body emits a `ValueMismatch`
for that key exactly when the two values differ by JavaScript strict
equality — value equality on scalars, reference equality on lists — so
element-wise equal but distinct list objects do produce a mismatch. -/
theorem c5_amended (o1 o2 : JsObj) (path k : String) (v1 v2 : Value)
    (h1 : lookup o1 k = some v1) (h2 : lookup o2 k = some v2)
    (hno : ¬(Value.isObj v1 = true ∧ Value.isObj v2 = true)) :
    diffKeys o1 o2 path [k] =
      if strictEq v1 v2 then [] else [Diff.valueMismatch (joinPath path k) v1 v2] := by
  rw [diffKeys, diffKeys, List.append_nil]
  cases hx1 : lookup o1 k with
  | none => rw [hx1] at h1; exact Option.noConfusion h1
  | some w1 =>
    rw [hx1] at h1
    injection h1 with hv1
    subst hv1
    cases hx2 : lookup o2 k with
    | none => rw [hx2] at h2; exact Option.noConfusion h2
    | some w2 =>
      rw [hx2] at h2
      injection h2 with hv2
      subst hv2
      cases w1 <;> cases w2 <;> first
        | rfl
        | exact absurd ⟨rfl, rfl⟩ hno

/-- C5 amended witness: for `{k: 1}` against `{k: 2}` the loop body emits
exactly the strict-inequality mismatch. -/
theorem c5_amended_witness :
    lookup [("k", Value.num 1)] "k" = some (Value.num 1) ∧
      lookup [("k", Value.num 2)] "k" = some (Value.num 2) ∧
      ¬(Value.isObj (Value.num 1) = true ∧ Value.isObj (Value.num 2) = true) ∧
      diffKeys [("k", Value.num 1)] [("k", Value.num 2)] "" ["k"] =
        if strictEq (Value.num 1) (Value.num 2) then []
        else [Diff.valueMismatch (joinPath "" "k") (Value.num 1) (Value.num 2)] :=
  ⟨rfl, rfl, by decide,
    c5_amended [("k", Value.num 1)] [("k", Value.num 2)] "" "k" (Value.num 1) (Value.num 2)
      rfl rfl (by decide)⟩

/-- `bracketIdx` is `indexOf('[')`. -/
theorem bracketIdxEq : ∀ l : List Char, bracketIdx l = l.findIdx? (fun c => c == '[') := by
  intro l
  induction l with
  | nil => rfl
  | cons c cs ih =>
    rw [bracketIdx, List.findIdx?_cons]
    by_cases hc : c = '['
    · simp [hc]
    · simp only [List.findIdx?_succ, ih]
      rw [if_neg (by simpa using hc), if_neg (by simpa using hc)]

/-- C9 amended: for every input containing a `[`, the text handed to object
assembly is obtained by slicing the *raw* input strictly between its first
`[` and its final character (exclusive) and *then* normalizing the slice —
slicing precedes normalization, the reverse of the claimed order. -/
theorem c9_amended (input : List Char) (h : '[' ∈ input) :
    parsePojoString input = parseObject (implContent input) := by
  rw [parsePojoString, implContent, bracketIdxEq]

/-- C9 amended witness: the input `Foo[a=b[` contains a bracket, and its
parse is the object assembled from the slice-then-normalize content. -/
theorem c9_amended_witness :
    '[' ∈ ("Foo[a=b[".data) ∧
      parsePojoString ("Foo[a=b[".data) = parseObject (implContent ("Foo[a=b[".data)) :=
  ⟨by decide, c9_amended ("Foo[a=b[".data) (by decide)⟩

end UtilityJs
